import Mathlib

/-!
Shallow embedding of the OLED display plugin core (`src/oled_display.c`):
the bitmap-font decoder, the UTF-8 transliterator, the pixel canvas,
the rasterizers, the text-width computation, the dirty-page diff/flush
engine and the Bresenham line drawer, together with theorems settling
the specification claims about them.

Machine integers are modelled as `Nat`/`Int` with explicit reductions
(`% 256` for `uint8_t` reads, `% 65536` for `uint16_t` stores, two's
complement wrap `i16` for `int16_t` stores) at the points where the C
code can overflow.
-/

namespace Oled

/-- Two's-complement truncation of an integer expression stored into an
`int16_t` variable, as on the common embedded targets of this plugin. -/
def i16 (v : Int) : Int := (v + 32768) % 65536 - 32768

/-- Embedding of `pgm_read_byte`: read one byte of a read-only asset.  Assets are
modelled as functions from byte index to byte value; the `% 256` records
that the C function returns a `uint8_t`. -/
def pgm_read_byte (data : Nat → Nat) (i : Nat) : Nat := data i % 256

/-- Constant `CHAR_SPACING` from `oled_display.c`. -/
def CHAR_SPACING : Nat := 1

/-- Constant `BITS_PER_BYTE` from `oled_display.c`. -/
def BITS_PER_BYTE : Nat := 8

/-- Constant `FONT_HEADER_SIZE` from `oled_display.c`. -/
def FONT_HEADER_SIZE : Nat := 4

/-- Constant `JUMPTABLE_BYTES_PER_CHAR` from `oled_display.c`. -/
def JUMPTABLE_BYTES_PER_CHAR : Nat := 4

/-- Embedding of `font_info_t`: font header fields. -/
structure font_info_t where
  width : Nat
  height : Nat
  first_char : Nat
  char_count : Nat
deriving DecidableEq

/-- Embedding of `char_info_t`: per-character metrics returned by `get_char_info`. -/
structure char_info_t where
  bitmap_offset : Nat
  width : Nat
  bytes : Nat
  is_defined : Bool
deriving DecidableEq

/-- Embedding of `get_font_info`: extract the four header bytes of a font asset; a
null font yields the all-zero record. -/
def get_font_info (font : Option (Nat → Nat)) : font_info_t :=
  match font with
  | none => ⟨0, 0, 0, 0⟩
  | some f =>
      ⟨pgm_read_byte f 0, pgm_read_byte f 1, pgm_read_byte f 2, pgm_read_byte f 3⟩

/-- Embedding of `get_char_info`: look up the jump-table entry of character code `c`.
Character codes are bytes (the C `char` argument, read as its code).
`bitmap_offset` is a `uint16_t` field, hence the `% 65536` on the store;
`jump_table_offset` (at most `4 + 255*4`) cannot overflow and is kept
as a plain `Nat`. -/
def get_char_info (font : Option (Nat → Nat)) (c : Nat) : char_info_t :=
  match font with
  | none => ⟨0, 0, 0, false⟩
  | some f =>
      let font_info := get_font_info (some f)
      if c < font_info.first_char ∨ font_info.first_char + font_info.char_count ≤ c then
        ⟨0, font_info.width, 0, false⟩
      else
        let char_index := c - font_info.first_char
        let jump_table_offset := FONT_HEADER_SIZE + char_index * JUMPTABLE_BYTES_PER_CHAR
        let offset_msb := pgm_read_byte f (jump_table_offset + 0)
        let offset_lsb := pgm_read_byte f (jump_table_offset + 1)
        let bytes := pgm_read_byte f (jump_table_offset + 2)
        let width := pgm_read_byte f (jump_table_offset + 3)
        if offset_msb = 0xFF ∧ offset_lsb = 0xFF then
          ⟨0, width, bytes, false⟩
        else
          ⟨(FONT_HEADER_SIZE + font_info.char_count * JUMPTABLE_BYTES_PER_CHAR
              + (offset_msb * 256 + offset_lsb)) % 65536, width, bytes, true⟩

/-- Embedding of `utf8_to_ascii`: one step of the byte-folding state machine.  The
C function keeps the previous byte in a `static` variable; here the
state is passed and returned explicitly: the result is
`(returned byte, new value of last_char)`. -/
def utf8_to_ascii (last_char : Nat) (c : Nat) : Nat × Nat :=
  if c < 128 then (c, 0)
  else
    let last := last_char
    let out :=
      if last = 0xC2 then c
      else if last = 0xC3 then c ||| 0xC0
      else if last = 0x82 ∧ c = 0xAC then 0x80
      else 0
    (out, c)

/-- A concrete font asset exercising a large jump-table offset:
header `width 5, height 8, first_char 0, char_count 255`, and the entry
for code 0 holds `offset_hi = 0xFF, offset_lo = 0xFE, bytes 1, width 5`. -/
def font_big_offset : Nat → Nat := fun i =>
  if i = 0 then 5
  else if i = 1 then 8
  else if i = 2 then 0
  else if i = 3 then 255
  else if i = 4 then 255
  else if i = 5 then 254
  else if i = 6 then 1
  else if i = 7 then 5
  else 0

/-- Embedding of `display_color_t`: the draw-pen enumeration. -/
inductive display_color_t where
  | BLACK
  | WHITE
  | INVERSE
deriving DecidableEq

/-- The fields of the global `display_config_t` relevant to the core
(geometry and buffer size; the transport bytes live with the oracle). -/
structure display_config_t where
  width : Nat
  height : Nat
  pages : Nat
  buffer_size : Nat

/-- The two canvas byte buffers owned by the plugin: `back_buffer` is
the working canvas, `front_buffer` the shadow of what was last sent. -/
structure canvas_t where
  back_buffer : Nat → Nat
  front_buffer : Nat → Nat

/-- Embedding of `display_set_pixel`: bounds-checked single-pixel mutation of the
working buffer, applying the current pen at byte
`(y / 8) * width + x`, bit `y % 8`.  C reads the byte through a
`uint8_t` pointer; byte values are maintained by the operations. -/
def display_set_pixel (cfg : display_config_t) (color : display_color_t)
    (s : canvas_t) (x y : Int) : canvas_t :=
  if x < 0 ∨ (cfg.width : Int) ≤ x ∨ y < 0 ∨ (cfg.height : Int) ≤ y then s
  else
    let page := y.toNat / BITS_PER_BYTE
    let bit := y.toNat % BITS_PER_BYTE
    let idx := page * cfg.width + x.toNat
    { s with back_buffer := fun i =>
        if i = idx then
          match color with
          | .WHITE => s.back_buffer idx ||| (1 <<< bit)
          | .BLACK => s.back_buffer idx &&& (0xFF ^^^ (1 <<< bit))
          | .INVERSE => s.back_buffer idx ^^^ (1 <<< bit)
        else s.back_buffer i }

/-- Read back the bit of pixel `(x, y)` from a page-organized buffer
(observer used to state rasterizer properties). -/
def read_pixel (cfg : display_config_t) (buf : Nat → Nat) (x y : Nat) : Bool :=
  (buf (y / BITS_PER_BYTE * cfg.width + x)).testBit (y % BITS_PER_BYTE)

/-- Embedding of `display_draw_pixel_safe`: screen-bounds check, then `set_pixel`. -/
def display_draw_pixel_safe (cfg : display_config_t) (color : display_color_t)
    (s : canvas_t) (x y : Int) : Bool × canvas_t :=
  if x < 0 ∨ (cfg.width : Int) ≤ x ∨ y < 0 ∨ (cfg.height : Int) ≤ y then (false, s)
  else (true, display_set_pixel cfg color s x y)

/-- The default 128x64 geometry from `ssd1306_i2c.h` after `display_init`. -/
def cfg0 : display_config_t := ⟨128, 64, 8, 1024⟩

/-- An all-zero pair of canvas buffers. -/
def canvas0 : canvas_t := ⟨fun _ => 0, fun _ => 0⟩

/-- Innermost loop of `display_draw_char`: walk the 8 bits of one
column byte, drawing each set bit at `(xj, y_pos + bit)`. -/
def draw_char_bits (cfg : display_config_t) (color : display_color_t)
    (column_byte : Nat) (xj y_pos : Int) (s1 : canvas_t) : canvas_t :=
  (List.range BITS_PER_BYTE).foldl (fun s1 bit =>
    if column_byte.testBit bit then
      (display_draw_pixel_safe cfg color s1 xj (y_pos + (bit : Int))).2
    else s1) s1

/-- Middle loop of `display_draw_char`: walk the `bytes_per_column`
vertical bytes of column `j`, skipping zero bytes. -/
def draw_char_column (cfg : display_config_t) (color : display_color_t)
    (f : Nat → Nat) (bitmap_offset bytes_per_column : Nat)
    (xj y : Int) (j : Nat) (s1 : canvas_t) : canvas_t :=
  (List.range bytes_per_column).foldl (fun s1 k =>
    let column_byte := pgm_read_byte f (bitmap_offset + j * bytes_per_column + k)
    if column_byte = 0 then s1
    else draw_char_bits cfg color column_byte xj
      (y + (k : Int) * (BITS_PER_BYTE : Int)) s1) s1

/-- Embedding of `display_draw_char`: look up the glyph, return
`advance = width + CHAR_SPACING`; if the glyph is defined, draw its
column-major bitmap (columns clipped to the screen horizontally). -/
def display_draw_char (cfg : display_config_t) (color : display_color_t)
    (s : canvas_t) (x y : Int) (c : Nat) (font : Option (Nat → Nat)) :
    Nat × canvas_t :=
  match font with
  | none => (0, s)
  | some f =>
      let font_info := get_font_info (some f)
      let char_info := get_char_info (some f) c
      if char_info.is_defined = false then (char_info.width + CHAR_SPACING, s)
      else
        let bytes_per_column := (font_info.height + 7) / 8
        (char_info.width + CHAR_SPACING,
          (List.range char_info.width).foldl (fun s1 (j : Nat) =>
            if x + (j : Int) < 0 ∨ (cfg.width : Int) ≤ x + (j : Int) then s1
            else draw_char_column cfg color f char_info.bitmap_offset
              bytes_per_column (x + (j : Int)) y j s1) s)

/-- A one-glyph font of declared height 9 (not a multiple of 8): code 65
has two column bytes, the second being `0b10` whose set bit addresses
row `1*8 + 1 = 9 ≥ 9`. -/
def font_h9 : Nat → Nat := fun i =>
  if i = 0 then 1
  else if i = 1 then 9
  else if i = 2 then 65
  else if i = 3 then 1
  else if i = 4 then 0
  else if i = 5 then 0
  else if i = 6 then 2
  else if i = 7 then 1
  else if i = 8 then 0
  else if i = 9 then 2
  else 0

/-- Loop of `get_string_width_with_font`: iterate up to `length`
characters, stopping at a NUL byte and breaking at a newline, summing
`advance_width + CHAR_SPACING`. -/
def get_string_width_loop (f : Nat → Nat) : List Nat → Nat → Nat
  | _, 0 => 0
  | [], _ => 0
  | c :: rest, Nat.succ n =>
      if c = 0 then 0
      else if c = 10 then 0
      else (get_char_info (some f) c).width + CHAR_SPACING
        + get_string_width_loop f rest n

/-- Embedding of `get_string_width_with_font`: null/empty guards, the summing loop,
then removal of the final character spacing when anything was summed.
Strings are modelled as the byte list before the NUL terminator. -/
def get_string_width_with_font (text : Option (List Nat)) (length : Nat)
    (font : Option (Nat → Nat)) : Nat :=
  match text, font with
  | none, _ => 0
  | _, none => 0
  | some t, some f =>
      if length = 0 then 0
      else
        let total_width := get_string_width_loop f t length
        if 0 < total_width then total_width - CHAR_SPACING else total_width

/-- Byte-register update of the `display_draw_xbm` inner loop: shift
right inside a byte, fetch the next source byte at multiples of 8. -/
def xbm_next_byte (xbm : Nat → Nat) (byteWidth j ii byte : Nat) : Nat :=
  if ii % 8 ≠ 0 then byte >>> 1 else pgm_read_byte xbm (j * byteWidth + ii / 8)

/-- Inner (column) loop of `display_draw_xbm` for row `j`, carrying the
byte register: at column `ii` the updated register's low bit decides
whether pixel `(x + ii, y + j)` is set. -/
def draw_xbm_row (cfg : display_config_t) (color : display_color_t)
    (xbm : Nat → Nat) (byteWidth j : Nat) (x y : Int) :
    Nat → Nat → Nat → canvas_t → Nat × canvas_t
  | _, 0, byte, s => (byte, s)
  | ii, Nat.succ n, byte, s =>
      draw_xbm_row cfg color xbm byteWidth j x y (ii + 1) n
        (xbm_next_byte xbm byteWidth j ii byte)
        (if xbm_next_byte xbm byteWidth j ii byte &&& 0x01 ≠ 0 then
          display_set_pixel cfg color s (x + (ii : Int)) (y + (j : Int))
        else s)

/-- Embedding of `display_draw_xbm`: row-major walk with `byteWidth = (width+7)/8`
bytes per row; the byte register persists across rows as in the C code
(it is re-fetched at the start of each nonempty row).  Dimensions are
the bitmap's, hence naturals. -/
def display_draw_xbm (cfg : display_config_t) (color : display_color_t)
    (s : canvas_t) (x y : Int) (width height : Nat) (xbm : Nat → Nat) : canvas_t :=
  ((List.range height).foldl (fun (acc : Nat × canvas_t) j =>
      draw_xbm_row cfg color xbm ((width + 7) / 8) j x y 0 width acc.1 acc.2)
    (0, s)).2

/-- A `memcmp` of one page of the working buffer against the shadow
buffer, as a change flag (`true` when the page differs). -/
def page_changed (cfg : display_config_t) (s : canvas_t) (page : Nat) : Bool :=
  !((List.range cfg.width).all (fun col =>
      s.front_buffer (page * cfg.width + col) == s.back_buffer (page * cfg.width + col)))

/-- Transmission loop of `display_refresh`: each changed page issues
four transport calls (page-select command, two column-reset commands,
one page-data write); `oracle k` is the boolean result of the `k`-th
transport call of this refresh, and the accumulator carries
`(success, number of calls made)`.  `success &= call()` in C evaluates
the call regardless of the flag, so every call is consumed. -/
def send_changed_pages (cfg : display_config_t) (s : canvas_t)
    (oracle : Nat → Bool) : List Nat → Bool × Nat → Bool × Nat
  | [], acc => acc
  | page :: rest, (success, n) =>
      if page_changed cfg s page then
        send_changed_pages cfg s oracle rest
          ((((success && oracle n) && oracle (n + 1)) && oracle (n + 2)) && oracle (n + 3),
            n + 4)
      else send_changed_pages cfg s oracle rest (success, n)

/-- Embedding of `display_refresh`: page-wise diff of working vs shadow; if no page
changed, immediate success with zero transport calls; otherwise send
the changed pages and, on full success, `memcpy` the working buffer
over the shadow (`buffer_size` bytes).  The result is
`(success, new canvas state, number of transport calls made)`. -/
def display_refresh (cfg : display_config_t) (s : canvas_t)
    (oracle : Nat → Bool) : Bool × canvas_t × Nat :=
  if (List.range cfg.pages).any (fun page => page_changed cfg s page) = false then
    (true, s, 0)
  else
    match send_changed_pages cfg s oracle (List.range cfg.pages) (true, 0) with
    | (success, n) =>
        if success then
          (true, { s with front_buffer := fun i =>
              if i < cfg.buffer_size then s.back_buffer i else s.front_buffer i }, n)
        else (false, s, n)

/-- A tiny 2x16 two-page geometry for concrete refresh runs. -/
def cfg1 : display_config_t := ⟨2, 16, 2, 4⟩

/-- A canvas whose working buffer differs everywhere from its shadow. -/
def canvas_dirty : canvas_t := ⟨fun _ => 1, fun _ => 0⟩

/-- C stdlib `abs` on `int` arguments. -/
def c_abs (v : Int) : Int := if v < 0 then -v else v

/-- Loop-invariant parameters of `display_draw_line` (endpoint and the
values `dx`, `dy`, `sx`, `sy` computed before the loop). -/
structure line_params where
  x1 : Int
  y1 : Int
  dx : Int
  dy : Int
  sx : Int
  sy : Int
deriving DecidableEq

/-- Mutable loop state of `display_draw_line`. -/
structure line_state where
  x0 : Int
  y0 : Int
  err : Int
deriving DecidableEq

/-- One iteration of the `display_draw_line` loop, after its single
`display_set_pixel(x0, y0)` call: `none` means the loop `break`s during
this iteration, `some` is the state for the next iteration.  `err` and
`e2` are `int16_t`, hence the `i16` wraps; the positions only ever step
from their start value toward `x1`/`y1`, so they cannot overflow. -/
def line_step (p : line_params) (s : line_state) : Option line_state :=
  if s.x0 = p.x1 ∧ s.y0 = p.y1 then none
  else
    let e2 := i16 (2 * s.err)
    if p.dy ≤ e2 then
      if s.x0 = p.x1 then none
      else
        let s1 : line_state := ⟨s.x0 + p.sx, s.y0, i16 (s.err + p.dy)⟩
        if e2 ≤ p.dx then
          if s1.y0 = p.y1 then none
          else some ⟨s1.x0, s1.y0 + p.sy, i16 (s1.err + p.dx)⟩
        else some s1
    else
      if e2 ≤ p.dx then
        if s.y0 = p.y1 then none
        else some ⟨s.x0, s.y0 + p.sy, i16 (s.err + p.dx)⟩
      else some s

/-- Run the line loop on at most `fuel` iterations: `some n` means the
loop finished after `n` iterations (one pixel-set call each), `none`
that it is still running when the fuel is exhausted. -/
def line_run (p : line_params) : line_state → Nat → Option Nat
  | _, 0 => none
  | s, fuel + 1 =>
      match line_step p s with
      | none => some 1
      | some s2 =>
          match line_run p s2 fuel with
          | none => none
          | some n => some (n + 1)

/-- Embedding of `display_draw_line` as a fueled run: `dx = abs(x1-x0)` and
`dy = -abs(y1-y0)` are `int16_t` variables, hence wrapped; the result
counts the `display_set_pixel` calls if the loop finishes. -/
def display_draw_line (x0 y0 x1 y1 : Int) (fuel : Nat) : Option Nat :=
  line_run
    ⟨x1, y1, i16 (c_abs (x1 - x0)), i16 (-c_abs (y1 - y0)),
      if x0 < x1 then 1 else -1, if y0 < y1 then 1 else -1⟩
    ⟨x0, y0, i16 (i16 (c_abs (x1 - x0)) + i16 (-c_abs (y1 - y0)))⟩
    fuel

/-- Decompose a page-buffer index into page and column. -/
theorem index_inj {W A B p x : Nat} (hp : p < W) (hx : x < W)
    (h : A * W + p = B * W + x) : A = B ∧ p = x := by
  have h1 : (A * W + p) / W = A := by
    rw [Nat.mul_comm A W, Nat.mul_add_div (by omega)]
    simp [Nat.div_eq_of_lt hp]
  have h2 : (B * W + x) / W = B := by
    rw [Nat.mul_comm B W, Nat.mul_add_div (by omega)]
    simp [Nat.div_eq_of_lt hx]
  have hAB : A = B := by rw [← h1, h, h2]
  subst hAB
  exact ⟨rfl, by omega⟩

/-- A white `set_pixel` at in-range `(x, y)` turns that pixel on. -/
theorem read_set_pixel_white_self (cfg : display_config_t) (s : canvas_t)
    (x y : Int) (hx0 : 0 ≤ x) (hx1 : x < (cfg.width : Int))
    (hy0 : 0 ≤ y) (hy1 : y < (cfg.height : Int)) :
    read_pixel cfg (display_set_pixel cfg .WHITE s x y).back_buffer x.toNat y.toNat = true := by
  unfold display_set_pixel
  rw [if_neg (by push_neg; exact ⟨hx0, hx1, hy0, hy1⟩)]
  unfold read_pixel
  simp [Nat.shiftLeft_eq, Nat.testBit_or, Nat.testBit_two_pow]

/-- A white `set_pixel` never turns a pixel off. -/
theorem read_set_pixel_white_mono (cfg : display_config_t) (s : canvas_t)
    (x y : Int) (p q : Nat)
    (h : read_pixel cfg s.back_buffer p q = true) :
    read_pixel cfg (display_set_pixel cfg .WHITE s x y).back_buffer p q = true := by
  unfold display_set_pixel
  by_cases hg : x < 0 ∨ (cfg.width : Int) ≤ x ∨ y < 0 ∨ (cfg.height : Int) ≤ y
  · rw [if_pos hg]; exact h
  · rw [if_neg hg]
    unfold read_pixel at h ⊢
    simp only []
    by_cases he : q / BITS_PER_BYTE * cfg.width + p
        = y.toNat / BITS_PER_BYTE * cfg.width + x.toNat
    · rw [if_pos he, Nat.testBit_or]
      rw [← he, h, Bool.true_or]
    · rw [if_neg he]; exact h

/-- A white `set_pixel` aimed at any other coordinate than `(p, q)`
leaves pixel `(p, q)` unchanged. -/
theorem read_set_pixel_white_frame (cfg : display_config_t) (s : canvas_t)
    (x y : Int) (p q : Nat) (hp : p < cfg.width)
    (hne : ¬(x = (p : Int) ∧ y = (q : Int))) :
    read_pixel cfg (display_set_pixel cfg .WHITE s x y).back_buffer p q
      = read_pixel cfg s.back_buffer p q := by
  unfold display_set_pixel
  by_cases hg : x < 0 ∨ (cfg.width : Int) ≤ x ∨ y < 0 ∨ (cfg.height : Int) ≤ y
  · rw [if_pos hg]
  · rw [if_neg hg]
    push_neg at hg
    obtain ⟨hx0, hx1, hy0, hy1⟩ := hg
    have hxt : x.toNat < cfg.width := by omega
    unfold read_pixel
    simp only []
    by_cases he : q / BITS_PER_BYTE * cfg.width + p
        = y.toNat / BITS_PER_BYTE * cfg.width + x.toNat
    · obtain ⟨hdiv, hcol⟩ := index_inj hp hxt he
      have hbit : q % BITS_PER_BYTE ≠ y.toNat % BITS_PER_BYTE := by
        intro hb
        have hq : q = y.toNat := by
          have d1 := Nat.div_add_mod q 8
          have d2 := Nat.div_add_mod y.toNat 8
          simp only [BITS_PER_BYTE] at hdiv hb
          omega
        exact hne ⟨by omega, by omega⟩
      rw [if_pos he, Nat.testBit_or, Nat.shiftLeft_eq, Nat.one_mul,
        Nat.testBit_two_pow]
      rw [← he]
      simp [hbit.symm]
    · rw [if_neg he]

/-- C4: `display_set_pixel` at a coordinate with `x < 0`, `x ≥ width`,
`y < 0` or `y ≥ height` leaves both canvas buffers entirely unchanged,
whatever the current draw color. -/
theorem set_pixel_out_of_range (cfg : display_config_t) (color : display_color_t)
    (s : canvas_t) (x y : Int)
    (h : x < 0 ∨ (cfg.width : Int) ≤ x ∨ y < 0 ∨ (cfg.height : Int) ≤ y) :
    display_set_pixel cfg color s x y = s := by
  unfold display_set_pixel
  rw [if_pos h]

/-- Witness for C4 on the default geometry: writes at `x = -1` and at
`y = 64` are silent no-ops for two different pen colors. -/
theorem set_pixel_out_of_range_witness :
    display_set_pixel cfg0 .WHITE canvas0 (-1) 0 = canvas0 ∧
    display_set_pixel cfg0 .INVERSE canvas0 5 64 = canvas0 := by
  constructor
  · exact set_pixel_out_of_range cfg0 .WHITE canvas0 (-1) 0 (by left; decide)
  · exact set_pixel_out_of_range cfg0 .INVERSE canvas0 5 64
      (by right; right; right; decide)

/-- A predicate preserved by every fold step is preserved by the fold. -/
theorem foldl_pred_mono {σ α : Type _} (P : σ → Prop) (step : σ → α → σ)
    (mono : ∀ s a, P s → P (step s a)) :
    ∀ (l : List α) (s : σ), P s → P (l.foldl step s)
  | [], _, h => h
  | a :: l, s, h => foldl_pred_mono P step mono l (step s a) (mono s a h)

/-- If some list element's step establishes a predicate that all steps
preserve, the whole fold establishes it. -/
theorem foldl_pred_of_mem {σ α : Type _} (P : σ → Prop) (step : σ → α → σ)
    (mono : ∀ s a, P s → P (step s a)) :
    ∀ (l : List α) (a : α), a ∈ l → (∀ s, P (step s a)) →
      ∀ s : σ, P (l.foldl step s) := by
  intro l
  induction l with
  | nil => intro a ha; cases ha
  | cons b t ih =>
      intro a ha hhit s
      rcases List.mem_cons.mp ha with rfl | hmem
      · exact foldl_pred_mono P step mono t (step s a) (hhit s)
      · exact ih a hmem hhit (step s b)

/-- A `draw_char_bits` run with the white pen never turns a pixel off. -/
theorem draw_char_bits_mono (cfg : display_config_t) (b : Nat) (xj yp : Int)
    (px py : Nat) (s1 : canvas_t)
    (h : read_pixel cfg s1.back_buffer px py = true) :
    read_pixel cfg (draw_char_bits cfg .WHITE b xj yp s1).back_buffer px py = true := by
  unfold draw_char_bits
  refine foldl_pred_mono (fun st : canvas_t => read_pixel cfg st.back_buffer px py = true)
    _ ?_ _ _ h
  intro s2 bt h2
  by_cases hb : b.testBit bt
  · rw [if_pos hb]
    unfold display_draw_pixel_safe
    by_cases hg : xj < 0 ∨ (cfg.width : Int) ≤ xj ∨ yp + (bt : Int) < 0 ∨
        (cfg.height : Int) ≤ yp + (bt : Int)
    · rw [if_pos hg]; exact h2
    · rw [if_neg hg]; exact read_set_pixel_white_mono cfg s2 _ _ _ _ h2
  · rw [if_neg hb]; exact h2

/-- A `draw_char_bits` run with the white pen turns on the pixel of any set
bit whose target coordinate is on screen. -/
theorem draw_char_bits_hit (cfg : display_config_t) (b : Nat) (xj yp : Int)
    (bit : Nat) (hbit : bit < BITS_PER_BYTE) (hb : b.testBit bit = true)
    (hx0 : 0 ≤ xj) (hx1 : xj < (cfg.width : Int))
    (hy0 : 0 ≤ yp + (bit : Int)) (hy1 : yp + (bit : Int) < (cfg.height : Int))
    (s1 : canvas_t) :
    read_pixel cfg (draw_char_bits cfg .WHITE b xj yp s1).back_buffer
      xj.toNat (yp + (bit : Int)).toNat = true := by
  unfold draw_char_bits
  refine foldl_pred_of_mem
    (fun st : canvas_t => read_pixel cfg st.back_buffer xj.toNat (yp + (bit : Int)).toNat = true)
    _ ?_ _ bit (List.mem_range.mpr hbit) ?_ s1
  · intro s2 bt h2
    by_cases hbt : b.testBit bt
    · rw [if_pos hbt]
      unfold display_draw_pixel_safe
      by_cases hg : xj < 0 ∨ (cfg.width : Int) ≤ xj ∨ yp + (bt : Int) < 0 ∨
          (cfg.height : Int) ≤ yp + (bt : Int)
      · rw [if_pos hg]; exact h2
      · rw [if_neg hg]; exact read_set_pixel_white_mono cfg s2 _ _ _ _ h2
    · rw [if_neg hbt]; exact h2
  · intro s2
    rw [if_pos hb]
    unfold display_draw_pixel_safe
    rw [if_neg (by push_neg; exact ⟨hx0, hx1, hy0, hy1⟩)]
    exact read_set_pixel_white_self cfg s2 _ _ hx0 hx1 hy0 hy1

/-- A `draw_char_column` run with the white pen never turns a pixel off. -/
theorem draw_char_column_mono (cfg : display_config_t) (f : Nat → Nat)
    (off bpc : Nat) (xj y : Int) (j : Nat) (px py : Nat) (s1 : canvas_t)
    (h : read_pixel cfg s1.back_buffer px py = true) :
    read_pixel cfg (draw_char_column cfg .WHITE f off bpc xj y j s1).back_buffer
      px py = true := by
  unfold draw_char_column
  refine foldl_pred_mono (fun st : canvas_t => read_pixel cfg st.back_buffer px py = true)
    _ ?_ _ _ h
  intro s2 k h2
  simp only []
  by_cases hz : pgm_read_byte f (off + j * bpc + k) = 0
  · rw [if_pos hz]; exact h2
  · rw [if_neg hz]; exact draw_char_bits_mono cfg _ _ _ _ _ _ h2

/-- C5 (amended): `display_draw_char` with the white pen sets a pixel
for every set bit of every column byte whose target lies on screen —
including set bits in the final column byte at rows `k*8 + bit` at or
beyond the declared font height.  Bits beyond the declared height are
drawn, not ignored. -/
theorem draw_char_sets_all_column_bits (cfg : display_config_t) (s : canvas_t)
    (x y : Int) (c : Nat) (f : Nat → Nat) (j k bit : Nat)
    (hdef : (get_char_info (some f) c).is_defined = true)
    (hj : j < (get_char_info (some f) c).width)
    (hk : k < ((get_font_info (some f)).height + 7) / 8)
    (hbit : bit < BITS_PER_BYTE)
    (hset : (pgm_read_byte f ((get_char_info (some f) c).bitmap_offset
        + j * (((get_font_info (some f)).height + 7) / 8) + k)).testBit bit = true)
    (hx0 : 0 ≤ x + (j : Int)) (hx1 : x + (j : Int) < (cfg.width : Int))
    (hy0 : 0 ≤ y + (k : Int) * (BITS_PER_BYTE : Int) + (bit : Int))
    (hy1 : y + (k : Int) * (BITS_PER_BYTE : Int) + (bit : Int) < (cfg.height : Int)) :
    read_pixel cfg (display_draw_char cfg .WHITE s x y c (some f)).2.back_buffer
      (x + (j : Int)).toNat
      (y + (k : Int) * (BITS_PER_BYTE : Int) + (bit : Int)).toNat = true := by
  simp only [display_draw_char]
  rw [if_neg (by rw [hdef]; simp)]
  simp only []
  refine foldl_pred_of_mem
    (fun st : canvas_t => read_pixel cfg st.back_buffer (x + (j : Int)).toNat
      (y + (k : Int) * (BITS_PER_BYTE : Int) + (bit : Int)).toNat = true)
    _ ?_ _ j (List.mem_range.mpr hj) ?_ s
  · intro s2 j2 h2
    by_cases hg : x + (j2 : Int) < 0 ∨ (cfg.width : Int) ≤ x + (j2 : Int)
    · rw [if_pos hg]; exact h2
    · rw [if_neg hg]; exact draw_char_column_mono cfg _ _ _ _ _ _ _ _ _ h2
  · intro s2
    rw [if_neg (by push_neg; exact ⟨hx0, hx1⟩)]
    unfold draw_char_column
    refine foldl_pred_of_mem
      (fun st : canvas_t => read_pixel cfg st.back_buffer (x + (j : Int)).toNat
        (y + (k : Int) * (BITS_PER_BYTE : Int) + (bit : Int)).toNat = true)
      _ ?_ _ k (List.mem_range.mpr hk) ?_ s2
    · intro s3 k2 h3
      simp only []
      by_cases hz : pgm_read_byte f ((get_char_info (some f) c).bitmap_offset
          + j * (((get_font_info (some f)).height + 7) / 8) + k2) = 0
      · rw [if_pos hz]; exact h3
      · rw [if_neg hz]; exact draw_char_bits_mono cfg _ _ _ _ _ _ h3
    · intro s3
      simp only []
      have hz : ¬ pgm_read_byte f ((get_char_info (some f) c).bitmap_offset
          + j * (((get_font_info (some f)).height + 7) / 8) + k) = 0 := by
        intro hz
        rw [hz] at hset
        simp [Nat.zero_testBit] at hset
      rw [if_neg hz]
      exact draw_char_bits_hit cfg _ _ _ bit hbit hset hx0 hx1 hy0 hy1 s3

/-- Counterexample for C5: with `font_h9` (declared height 9, defined
glyph 65) drawn at the origin, the code sets the pixel at row 9, which
is at (not strictly below) the declared height — the set bit in the
final column byte beyond the height is not ignored. -/
theorem draw_char_row_beyond_height_drawn :
    (get_font_info (some font_h9)).height = 9 ∧ 9 % 8 ≠ 0 ∧
    (get_char_info (some font_h9) 65).is_defined = true ∧
    read_pixel cfg0
      (display_draw_char cfg0 .WHITE canvas0 0 0 65 (some font_h9)).2.back_buffer
      0 9 = true := by
  decide

/-- Witness for C5 (amended) at the concrete font `font_h9`, glyph 65,
column 0, byte 1, bit 1 — the pixel at row 9 is set. -/
theorem draw_char_sets_all_column_bits_witness :
    read_pixel cfg0
      (display_draw_char cfg0 .WHITE canvas0 0 0 65 (some font_h9)).2.back_buffer
      0 9 = true := by
  have h := draw_char_sets_all_column_bits cfg0 canvas0 0 0 65 font_h9 0 1 1
    (by decide) (by decide) (by decide) (by decide) (by decide)
    (by decide) (by decide) (by decide) (by decide)
  simpa using h

/-- On a non-null font, `display_draw_char` always returns the advance
`char_info.width + CHAR_SPACING`, defined glyph or not. -/
theorem draw_char_advance (cfg : display_config_t) (color : display_color_t)
    (s : canvas_t) (x y : Int) (ch : Nat) (f : Nat → Nat) :
    (display_draw_char cfg color s x y ch (some f)).1
      = (get_char_info (some f) ch).width + CHAR_SPACING := by
  simp only [display_draw_char]
  by_cases h : (get_char_info (some f) ch).is_defined = false
  · rw [if_pos h]
  · rw [if_neg h]

/-- The width loop over a NUL-free, newline-free string sums
`advance + spacing` over its characters. -/
theorem string_width_loop_eq_sum (f : Nat → Nat) :
    ∀ t : List Nat, (∀ ch ∈ t, ch ≠ 0 ∧ ch ≠ 10) →
      get_string_width_loop f t t.length
        = (t.map (fun ch => (get_char_info (some f) ch).width + CHAR_SPACING)).sum := by
  intro t
  induction t with
  | nil => intro _; rfl
  | cons c rest ih =>
      intro h
      have hc := h c (List.mem_cons_self c rest)
      simp only [List.length_cons, get_string_width_loop]
      rw [if_neg hc.1, if_neg hc.2,
        ih (fun ch hch => h ch (List.mem_cons_of_mem c hch))]
      simp [List.sum_cons]

/-- Counterexample for C6: for the one-character string `[65]` and the
font `font_h9`, the string width is 1 while the sum of the advances
returned by `display_draw_char` is 2: the two differ by the trailing
`CHAR_SPACING` the width computation removes. -/
theorem string_width_ne_sum_of_advances :
    get_string_width_with_font (some [65]) 1 (some font_h9) = 1 ∧
    ([65].map (fun ch =>
        (display_draw_char cfg0 .WHITE canvas0 0 0 ch (some font_h9)).1)).sum = 2 ∧
    (1 : Nat) ≠ 2 := by
  decide

/-- C6 (amended): the width of the empty string is 0, and for every
NUL-free, newline-free string the string width equals the sum of the
advances returned by `display_draw_char` over its characters minus the
one trailing `CHAR_SPACING` (natural subtraction, so the empty case is
included). -/
theorem string_width_eq_sum_of_advances_sub_spacing (f : Nat → Nat)
    (text : List Nat) (hnz : ∀ ch ∈ text, ch ≠ 0 ∧ ch ≠ 10)
    (cfg : display_config_t) (color : display_color_t) (s : canvas_t) (x y : Int) :
    get_string_width_with_font (some text) text.length (some f)
      = (text.map (fun ch =>
          (display_draw_char cfg color s x y ch (some f)).1)).sum - CHAR_SPACING := by
  have hmap : (text.map (fun ch =>
      (display_draw_char cfg color s x y ch (some f)).1))
      = (text.map (fun ch => (get_char_info (some f) ch).width + CHAR_SPACING)) := by
    apply List.map_congr_left
    intro ch _
    exact draw_char_advance cfg color s x y ch f
  rw [hmap]
  cases text with
  | nil => rfl
  | cons c rest =>
      simp only [get_string_width_with_font]
      rw [if_neg (by simp)]
      rw [string_width_loop_eq_sum f (c :: rest) hnz]
      have hpos : 0 < ((c :: rest).map
          (fun ch => (get_char_info (some f) ch).width + CHAR_SPACING)).sum := by
        simp [List.sum_cons, CHAR_SPACING]
      rw [if_pos hpos]

/-- Witness for C6 (amended) on the one-character string `[65]` with
`font_h9`: width 1 equals advance sum 2 minus spacing 1. -/
theorem string_width_eq_sum_witness :
    get_string_width_with_font (some [65]) ([65] : List Nat).length (some font_h9)
      = (([65] : List Nat).map (fun ch =>
          (display_draw_char cfg0 .WHITE canvas0 0 0 ch (some font_h9)).1)).sum
        - CHAR_SPACING :=
  string_width_eq_sum_of_advances_sub_spacing font_h9 [65]
    (by
      intro ch hch
      rw [List.mem_singleton] at hch
      subst hch
      exact ⟨by decide, by decide⟩)
    cfg0 .WHITE canvas0 0 0

/-- A row of the XBM walk leaves every pixel outside its own screen row
unchanged (white pen). -/
theorem draw_xbm_row_frame (cfg : display_config_t) (xbm : Nat → Nat)
    (bw j : Nat) (x y : Int) (p q : Nat) (hp : p < cfg.width)
    (hq : y + (j : Int) ≠ (q : Int)) :
    ∀ (n ii byte : Nat) (s : canvas_t),
      read_pixel cfg (draw_xbm_row cfg .WHITE xbm bw j x y ii n byte s).2.back_buffer p q
        = read_pixel cfg s.back_buffer p q := by
  intro n
  induction n with
  | zero => intro ii byte s; rfl
  | succ n ih =>
      intro ii byte s
      simp only [draw_xbm_row]
      rw [ih]
      by_cases hb : xbm_next_byte xbm bw j ii byte &&& 0x01 ≠ 0
      · rw [if_pos hb]
        exact read_set_pixel_white_frame cfg s _ _ p q hp (fun hc => hq hc.2)
      · rw [if_neg hb]

/-- A row of the XBM walk leaves the pixel of column `t` unchanged once
the loop counter has moved past `t` (white pen). -/
theorem draw_xbm_row_frame_past (cfg : display_config_t) (xbm : Nat → Nat)
    (bw j : Nat) (x y : Int) (t q : Nat) (hx0 : 0 ≤ x + (t : Int))
    (hx1 : x + (t : Int) < (cfg.width : Int)) :
    ∀ (n ii byte : Nat), t < ii → ∀ s : canvas_t,
      read_pixel cfg (draw_xbm_row cfg .WHITE xbm bw j x y ii n byte s).2.back_buffer
          (x + (t : Int)).toNat q
        = read_pixel cfg s.back_buffer (x + (t : Int)).toNat q := by
  intro n
  induction n with
  | zero => intro ii byte _ s; rfl
  | succ n ih =>
      intro ii byte hti s
      simp only [draw_xbm_row]
      rw [ih ii.succ _ (by omega)]
      by_cases hb : xbm_next_byte xbm bw j ii byte &&& 0x01 ≠ 0
      · rw [if_pos hb]
        refine read_set_pixel_white_frame cfg s _ _ _ q (by omega) ?_
        intro hc
        have := hc.1
        omega
      · rw [if_neg hb]

/-- Characterization of one XBM row (white pen): the pixel of column
`t` of screen row `y + j` ends up set exactly when it was already set
or bit `t % 8` of source byte `j*bw + t/8` is 1 — the LSB-first order
of the carried byte register. -/
theorem draw_xbm_row_char (cfg : display_config_t) (xbm : Nat → Nat)
    (bw j : Nat) (x y : Int) (t : Nat)
    (hx0 : 0 ≤ x + (t : Int)) (hx1 : x + (t : Int) < (cfg.width : Int))
    (hy0 : 0 ≤ y + (j : Int)) (hy1 : y + (j : Int) < (cfg.height : Int)) :
    ∀ (n ii byte : Nat) (s : canvas_t), ii ≤ t → t < ii + n →
      (ii % 8 ≠ 0 → byte = pgm_read_byte xbm (j * bw + ii / 8) >>> (ii % 8 - 1)) →
      read_pixel cfg (draw_xbm_row cfg .WHITE xbm bw j x y ii n byte s).2.back_buffer
          (x + (t : Int)).toNat (y + (j : Int)).toNat
        = (read_pixel cfg s.back_buffer (x + (t : Int)).toNat (y + (j : Int)).toNat
            || (pgm_read_byte xbm (j * bw + t / 8)).testBit (t % 8)) := by
  intro n
  induction n with
  | zero => intro ii byte s h1 h2 _; omega
  | succ n ih =>
      intro ii byte s h1 h2 hpre
      simp only [draw_xbm_row]
      have hbyte2 : xbm_next_byte xbm bw j ii byte
          = pgm_read_byte xbm (j * bw + ii / 8) >>> (ii % 8) := by
        unfold xbm_next_byte
        by_cases h0 : ii % 8 ≠ 0
        · rw [if_pos h0, hpre h0, ← Nat.shiftRight_add]
          congr 1
          omega
        · push_neg at h0
          rw [if_neg (by omega), h0, Nat.shiftRight_zero]
      have htest : (xbm_next_byte xbm bw j ii byte &&& 0x01 ≠ 0)
          ↔ (pgm_read_byte xbm (j * bw + ii / 8)).testBit (ii % 8) = true := by
        rw [hbyte2, Nat.and_one_is_mod, Nat.shiftRight_eq_div_pow,
          Nat.testBit_to_div_mod]
        simp
      by_cases ht : t = ii
      · subst ht
        by_cases hb : xbm_next_byte xbm bw j t byte &&& 0x01 ≠ 0
        · rw [if_pos hb,
            draw_xbm_row_frame_past cfg xbm bw j x y t _ hx0 hx1 n (t + 1) _ (by omega),
            read_set_pixel_white_self cfg s _ _ hx0 hx1 hy0 hy1,
            htest.mp hb, Bool.or_true]
        · rw [if_neg hb,
            draw_xbm_row_frame_past cfg xbm bw j x y t _ hx0 hx1 n (t + 1) _ (by omega)]
          have hf : (pgm_read_byte xbm (j * bw + t / 8)).testBit (t % 8) = false := by
            rcases Bool.eq_false_or_eq_true
              ((pgm_read_byte xbm (j * bw + t / 8)).testBit (t % 8)) with h | h
            · exact absurd (htest.mpr h) hb
            · exact h
          rw [hf, Bool.or_false]
      · have hlt : ii < t := by omega
        have hpre2 : (ii + 1) % 8 ≠ 0 →
            xbm_next_byte xbm bw j ii byte
              = pgm_read_byte xbm (j * bw + (ii + 1) / 8) >>> ((ii + 1) % 8 - 1) := by
          intro h8
          have e1 : (ii + 1) / 8 = ii / 8 := by omega
          have e2 : (ii + 1) % 8 - 1 = ii % 8 := by omega
          rw [e1, e2]
          exact hbyte2
        rw [ih (ii + 1) _ _ (by omega) (by omega) hpre2]
        by_cases hb : xbm_next_byte xbm bw j ii byte &&& 0x01 ≠ 0
        · rw [if_pos hb,
            read_set_pixel_white_frame cfg s _ _ _ _ (by omega)
              (fun hc => by have := hc.1; omega)]
        · rw [if_neg hb]

/-- Folding XBM rows whose screen row differs from `q` leaves pixel
`(p, q)` unchanged (white pen). -/
theorem draw_xbm_rows_frame (cfg : display_config_t) (xbm : Nat → Nat)
    (bw w : Nat) (x y : Int) (p q : Nat) (hp : p < cfg.width) :
    ∀ l : List Nat, (∀ j2 ∈ l, y + (j2 : Int) ≠ (q : Int)) →
      ∀ acc : Nat × canvas_t,
        read_pixel cfg ((l.foldl (fun (acc : Nat × canvas_t) j2 =>
            draw_xbm_row cfg .WHITE xbm bw j2 x y 0 w acc.1 acc.2) acc)).2.back_buffer p q
          = read_pixel cfg acc.2.back_buffer p q := by
  intro l
  induction l with
  | nil => intro _ acc; rfl
  | cons b tl ih =>
      intro hne acc
      simp only [List.foldl_cons]
      rw [ih (fun j2 hj2 => hne j2 (List.mem_cons_of_mem b hj2))]
      exact draw_xbm_row_frame cfg xbm bw b x y p q hp
        (hne b (List.mem_cons_self b tl)) w 0 acc.1 acc.2

/-- C7 (amended): `display_draw_xbm` (white pen) reads the source
row-major with `byte_width = (w+7)/8` bytes per row and interprets each
byte LSB-first: for `i < w`, `j < h` with `(x+i, y+j)` on screen, the
pixel ends up set exactly when it was already set or bit `i % 8` of
source byte `j*byte_width + i/8` is 1; where that bit is 0 the pixel is
left untouched (transparent background). -/
theorem draw_xbm_lsb_first (cfg : display_config_t) (s : canvas_t) (x y : Int)
    (w h : Nat) (xbm : Nat → Nat) (i j : Nat) (hi : i < w) (hj : j < h)
    (hx0 : 0 ≤ x + (i : Int)) (hx1 : x + (i : Int) < (cfg.width : Int))
    (hy0 : 0 ≤ y + (j : Int)) (hy1 : y + (j : Int) < (cfg.height : Int)) :
    read_pixel cfg (display_draw_xbm cfg .WHITE s x y w h xbm).back_buffer
        (x + (i : Int)).toNat (y + (j : Int)).toNat
      = (read_pixel cfg s.back_buffer (x + (i : Int)).toNat (y + (j : Int)).toNat
          || (pgm_read_byte xbm (j * ((w + 7) / 8) + i / 8)).testBit (i % 8)) := by
  have main : ∀ l : List Nat, j ∈ l → l.Nodup → ∀ acc : Nat × canvas_t,
      read_pixel cfg ((l.foldl (fun (acc : Nat × canvas_t) j2 =>
          draw_xbm_row cfg .WHITE xbm ((w + 7) / 8) j2 x y 0 w acc.1 acc.2)
        acc)).2.back_buffer (x + (i : Int)).toNat (y + (j : Int)).toNat
        = (read_pixel cfg acc.2.back_buffer (x + (i : Int)).toNat (y + (j : Int)).toNat
            || (pgm_read_byte xbm (j * ((w + 7) / 8) + i / 8)).testBit (i % 8)) := by
    intro l
    induction l with
    | nil => intro hj0; cases hj0
    | cons b tl ih =>
        intro hjmem hnd acc
        simp only [List.foldl_cons]
        rcases List.mem_cons.mp hjmem with rfl | hmem
        · have hnotin : j ∉ tl := (List.nodup_cons.mp hnd).1
          rw [draw_xbm_rows_frame cfg xbm ((w + 7) / 8) w x y
            (x + (i : Int)).toNat (y + (j : Int)).toNat (by omega) tl
            (fun j2 hj2 he => hnotin (by
              have hjj : j2 = j := by omega
              exact hjj ▸ hj2))]
          exact draw_xbm_row_char cfg xbm ((w + 7) / 8) j x y i hx0 hx1 hy0 hy1
            w 0 acc.1 acc.2 (Nat.zero_le i) (by omega) (fun h0 => absurd rfl h0)
        · have hbq : y + (b : Int) ≠ (((y + (j : Int)).toNat : Nat) : Int) := by
            intro he
            have hb2 : b = j := by omega
            exact (List.nodup_cons.mp hnd).1 (hb2 ▸ hmem)
          rw [ih hmem (List.nodup_cons.mp hnd).2,
            draw_xbm_row_frame cfg xbm ((w + 7) / 8) b x y
              (x + (i : Int)).toNat (y + (j : Int)).toNat (by omega) hbq w 0 acc.1 acc.2]
  exact main (List.range h) (List.mem_range.mpr hj) (List.nodup_range h) (0, s)

/-- Counterexample for C7: drawing the single byte `0x01` as an 8x1
bitmap at the origin sets pixel `(0, 0)` although the MSB-first bit for
column 0 (bit 7 of the byte) is 0: the decoder is LSB-first, not
MSB-first. -/
theorem draw_xbm_msb_first_false :
    read_pixel cfg0
      (display_draw_xbm cfg0 .WHITE canvas0 0 0 8 1 (fun _ => 1)).back_buffer 0 0 = true ∧
    Nat.testBit 1 (7 - 0 % 8) = false := by
  decide

/-- Witness for C7 (amended) on the concrete 8x1 bitmap `0x01`: bit
`0 % 8` of byte 0 is 1, so pixel `(0, 0)` ends up set. -/
theorem draw_xbm_lsb_first_witness :
    read_pixel cfg0
      (display_draw_xbm cfg0 .WHITE canvas0 0 0 8 1 (fun _ => 1)).back_buffer 0 0 = true := by
  have hw := draw_xbm_lsb_first cfg0 canvas0 0 0 8 1 (fun _ => 1) 0 0
    (by decide) (by decide) (by decide) (by decide) (by decide) (by decide)
  norm_num at hw
  rw [hw]
  decide

/-- The transmission loop never decreases the call counter. -/
theorem send_pages_count_ge (cfg : display_config_t) (s : canvas_t)
    (oracle : Nat → Bool) :
    ∀ (l : List Nat) (success : Bool) (n : Nat),
      n ≤ (send_changed_pages cfg s oracle l (success, n)).2 := by
  intro l
  induction l with
  | nil => intro success n; exact Nat.le_refl n
  | cons page rest ih =>
      intro success n
      simp only [send_changed_pages]
      by_cases hc : page_changed cfg s page
      · rw [if_pos hc]
        exact Nat.le_trans (by omega) (ih _ (n + 4))
      · rw [if_neg hc]
        exact ih success n

/-- If the transmission loop reports success, the incoming flag was
true and every transport call consumed in the loop returned true. -/
theorem send_pages_success (cfg : display_config_t) (s : canvas_t)
    (oracle : Nat → Bool) :
    ∀ (l : List Nat) (success : Bool) (n : Nat),
      (send_changed_pages cfg s oracle l (success, n)).1 = true →
      success = true ∧ ∀ k2, n ≤ k2 →
        k2 < (send_changed_pages cfg s oracle l (success, n)).2 → oracle k2 = true := by
  intro l
  induction l with
  | nil =>
      intro success n h
      refine ⟨h, fun k2 h1 h2 => ?_⟩
      simp only [send_changed_pages] at h2
      omega
  | cons page rest ih =>
      intro success n
      simp only [send_changed_pages]
      by_cases hc : page_changed cfg s page
      · rw [if_pos hc]
        intro h
        obtain ⟨hflag, hrest⟩ := ih _ (n + 4) h
        have h0 : success = true ∧ oracle n = true ∧ oracle (n + 1) = true ∧
            oracle (n + 2) = true ∧ oracle (n + 3) = true := by
          simp only [Bool.and_eq_true] at hflag
          exact ⟨hflag.1.1.1.1, hflag.1.1.1.2, hflag.1.1.2, hflag.1.2, hflag.2⟩
        refine ⟨h0.1, fun k2 h1 h2 => ?_⟩
        have hcases : k2 = n ∨ k2 = n + 1 ∨ k2 = n + 2 ∨ k2 = n + 3 ∨ n + 4 ≤ k2 := by
          omega
        rcases hcases with rfl | rfl | rfl | rfl | hk
        · exact h0.2.1
        · exact h0.2.2.1
        · exact h0.2.2.2.1
        · exact h0.2.2.2.2
        · exact hrest k2 hk h2
      · rw [if_neg hc]
        exact ih success n

/-- C2: if at least one transport call made during `display_refresh`
returns false, the refresh returns false and the shadow (front) buffer
is left byte-for-byte unmodified — the working buffer is copied over
the shadow only when every transport call succeeds. -/
theorem refresh_failure_preserves_shadow (cfg : display_config_t)
    (s : canvas_t) (oracle : Nat → Bool)
    (h : ∃ k, k < (display_refresh cfg s oracle).2.2 ∧ oracle k = false) :
    (display_refresh cfg s oracle).1 = false ∧
    (display_refresh cfg s oracle).2.1 = s := by
  by_cases hany : (List.range cfg.pages).any
      (fun page => page_changed cfg s page) = false
  · exfalso
    obtain ⟨k, hk, _⟩ := h
    simp only [display_refresh, if_pos hany] at hk
    omega
  · rcases hsend : send_changed_pages cfg s oracle
        (List.range cfg.pages) (true, 0) with ⟨su, nn⟩
    by_cases hs : su = true
    · exfalso
      subst hs
      obtain ⟨k, hk, hkf⟩ := h
      obtain ⟨_, hall⟩ := send_pages_success cfg s oracle
        (List.range cfg.pages) true 0 (by rw [hsend])
      simp only [display_refresh, if_neg hany, hsend] at hk
      simp only [if_pos] at hk
      have hkn : k < (send_changed_pages cfg s oracle
          (List.range cfg.pages) (true, 0)).2 := by
        rw [hsend]
        exact hk
      have hkt := hall k (Nat.zero_le k) hkn
      rw [hkf] at hkt
      exact Bool.false_ne_true hkt
    · have hsu : su = false := by simpa using hs
      subst hsu
      constructor
      · simp only [display_refresh, if_neg hany, hsend]
        simp
      · simp only [display_refresh, if_neg hany, hsend]
        simp

/-- If every page's change flag is clear, `display_refresh` returns
success immediately with no transport call and an unchanged state. -/
theorem refresh_no_change (cfg : display_config_t) (s : canvas_t)
    (oracle : Nat → Bool)
    (h : ∀ page ∈ List.range cfg.pages, page_changed cfg s page = false) :
    display_refresh cfg s oracle = (true, s, 0) := by
  have hany : ((List.range cfg.pages).any fun page => page_changed cfg s page)
      = false := by
    rw [List.any_eq_false]
    intro p hp
    rw [h p hp]
    simp
  unfold display_refresh
  rw [if_pos hany]

/-- C1: if every page of the working buffer is byte-identical to the
corresponding page of the shadow buffer, `display_refresh` returns true
with zero transport calls and an untouched state; consequently a second
`display_refresh` right after a successful one (no intervening drawing,
`buffer_size` covering the pages as `display_init` sets it) performs
zero transport calls and returns true. -/
theorem refresh_identical_no_traffic (cfg : display_config_t) (s : canvas_t)
    (oracle : Nat → Bool) :
    ((∀ page, page < cfg.pages → ∀ col, col < cfg.width →
        s.front_buffer (page * cfg.width + col)
          = s.back_buffer (page * cfg.width + col)) →
      display_refresh cfg s oracle = (true, s, 0)) ∧
    (∀ oracle2 : Nat → Bool, cfg.width * cfg.pages ≤ cfg.buffer_size →
      (display_refresh cfg s oracle).1 = true →
      display_refresh cfg (display_refresh cfg s oracle).2.1 oracle2
        = (true, (display_refresh cfg s oracle).2.1, 0)) := by
  constructor
  · intro h
    refine refresh_no_change cfg s oracle (fun p hp => ?_)
    rw [List.mem_range] at hp
    have hall : (List.range cfg.width).all (fun col =>
        s.front_buffer (p * cfg.width + col) == s.back_buffer (p * cfg.width + col))
        = true := by
      rw [List.all_eq_true]
      intro col hcol
      rw [beq_iff_eq]
      exact h p hp col (List.mem_range.mp hcol)
    unfold page_changed
    rw [hall]
    rfl
  · intro oracle2 hbuf hsucc
    by_cases hany : ((List.range cfg.pages).any fun page => page_changed cfg s page)
        = false
    · have h1 : display_refresh cfg s oracle = (true, s, 0) := by
        unfold display_refresh
        rw [if_pos hany]
      rw [h1]
      unfold display_refresh
      rw [if_pos hany]
    · rcases hsend : send_changed_pages cfg s oracle
          (List.range cfg.pages) (true, 0) with ⟨su, nn⟩
      by_cases hsu : su = true
      · subst hsu
        have hres : display_refresh cfg s oracle
            = (true, { s with front_buffer := fun i =>
                if i < cfg.buffer_size then s.back_buffer i else s.front_buffer i },
              nn) := by
          simp only [display_refresh, if_neg hany, hsend]
          simp
        rw [hres]
        refine refresh_no_change cfg _ oracle2 (fun p hp => ?_)
        rw [List.mem_range] at hp
        have hall : (List.range cfg.width).all (fun col =>
            (if p * cfg.width + col < cfg.buffer_size then
              s.back_buffer (p * cfg.width + col)
            else s.front_buffer (p * cfg.width + col))
              == s.back_buffer (p * cfg.width + col)) = true := by
          rw [List.all_eq_true]
          intro col hcol
          rw [List.mem_range] at hcol
          have hidx : p * cfg.width + col < cfg.buffer_size := by
            have hlt : p * cfg.width + col < cfg.pages * cfg.width := by
              calc p * cfg.width + col < p * cfg.width + cfg.width := by omega
              _ = (p + 1) * cfg.width := by ring
              _ ≤ cfg.pages * cfg.width :=
                  Nat.mul_le_mul_right cfg.width (by omega)
            have hcm : cfg.pages * cfg.width = cfg.width * cfg.pages :=
              Nat.mul_comm cfg.pages cfg.width
            omega
          rw [if_pos hidx, beq_iff_eq]
        unfold page_changed
        rw [hall]
        rfl
      · exfalso
        have hsu2 : su = false := by simpa using hsu
        subst hsu2
        have hres : (display_refresh cfg s oracle).1 = false := by
          simp only [display_refresh, if_neg hany, hsend]
          simp
        rw [hres] at hsucc
        exact Bool.false_ne_true hsucc

/-- Witness for C1 on the default geometry with equal buffers and an
always-true transport: the first refresh is `(true, canvas0, 0)` and a
second consecutive refresh again makes zero transport calls. -/
theorem refresh_identical_no_traffic_witness :
    display_refresh cfg0 canvas0 (fun _ => true) = (true, canvas0, 0) ∧
    display_refresh cfg0
        (display_refresh cfg0 canvas0 (fun _ => true)).2.1 (fun _ => true)
      = (true, (display_refresh cfg0 canvas0 (fun _ => true)).2.1, 0) := by
  have h := refresh_identical_no_traffic cfg0 canvas0 (fun _ => true)
  have hfst := h.1 (fun p _ col _ => rfl)
  refine ⟨hfst, h.2 (fun _ => true) (by decide) (by rw [hfst])⟩

/-- Witness for C2 on `cfg1` with an always-failing transport: the
refresh makes 8 calls, call 0 fails, the result is failure and the
shadow buffer is untouched. -/
theorem refresh_failure_preserves_shadow_witness :
    (display_refresh cfg1 canvas_dirty (fun _ => false)).1 = false ∧
    (display_refresh cfg1 canvas_dirty (fun _ => false)).2.1 = canvas_dirty :=
  refresh_failure_preserves_shadow cfg1 canvas_dirty (fun _ => false)
    ⟨0, by decide, rfl⟩

/-- A state that steps to itself never finishes, whatever the fuel. -/
theorem line_run_stuck (p : line_params) (s : line_state)
    (h : line_step p s = some s) : ∀ fuel, line_run p s fuel = none := by
  intro fuel
  induction fuel with
  | zero => rfl
  | succ n ih => simp only [line_run, h, ih]

/-- Counterexample for C9: from `(-32768, 32767)` to `(32767, -32768)`
both `int16_t` differences wrap (`dx = -1`, `dy = 1`), neither loop
branch can fire, and the loop never terminates: after
`max(|dx|, |dy|) + 1 = 65536` pixel-set calls it is still running. -/
theorem draw_line_wrap_diverges :
    max ((32767 : Int) - (-32768 : Int)).natAbs
        ((-32768 : Int) - (32767 : Int)).natAbs + 1 = 65536 ∧
    display_draw_line (-32768) 32767 32767 (-32768) 65536 = none := by
  refine ⟨by norm_num, ?_⟩
  unfold display_draw_line
  exact line_run_stuck _ _ (by decide) 65536

/-- The map `i16` is the identity on values already in `int16_t` range. -/
theorem i16_eq_self (v : Int) (h1 : -32768 ≤ v) (h2 : v ≤ 32767) : i16 v = v := by
  unfold i16
  omega

/-- One successful step prepends one pixel-set call to a finished run. -/
theorem line_run_succ (p : line_params) (s s2 : line_state) (fuel n : Nat)
    (h : line_step p s = some s2) (h2 : line_run p s2 fuel = some n) :
    line_run p s (fuel + 1) = some (n + 1) := by
  simp only [line_run, h, h2]

/-- A breaking step finishes the run after its single pixel-set call. -/
theorem line_run_break (p : line_params) (s : line_state) (fuel : Nat)
    (h : line_step p s = none) : line_run p s (fuel + 1) = some 1 := by
  simp only [line_run, h]

/-- X-major runs of the line loop: when `dx ≥ -dy` (both exact, within
`±10922` so that no `int16_t` intermediate wraps) and the error term
satisfies `dy ≤ 2*err ≤ 3*dx`, the loop finishes within `a + 1`
iterations, where `a` is the remaining distance along x. -/
theorem line_run_x_major (p : line_params)
    (hsx : p.sx = 1 ∨ p.sx = -1) (hsy : p.sy = 1 ∨ p.sy = -1)
    (hdx0 : 0 ≤ p.dx) (hdxN : p.dx ≤ 10922)
    (hdyN : -10922 ≤ p.dy) (hdy0 : p.dy ≤ 0)
    (hmaj : -p.dy ≤ p.dx) :
    ∀ (a : Nat) (b : Nat) (s : line_state),
      s.x0 = p.x1 - p.sx * (a : Int) → s.y0 = p.y1 - p.sy * (b : Int) →
      p.dy ≤ 2 * s.err → 2 * s.err ≤ 3 * p.dx →
      ∃ n, line_run p s (a + 1) = some n ∧ n ≤ a + 1 := by
  intro a
  induction a with
  | zero =>
      intro b s hpx hpy hi1 hi2
      have hx0 : s.x0 = p.x1 := by rw [hpx]; push_cast; ring
      have he2 : i16 (2 * s.err) = 2 * s.err := i16_eq_self _ (by omega) (by omega)
      have hstep : line_step p s = none := by
        simp only [line_step]
        by_cases hy : s.y0 = p.y1
        · rw [if_pos ⟨hx0, hy⟩]
        · rw [if_neg (fun hc => hy hc.2), he2, if_pos (by omega), if_pos hx0]
      exact ⟨1, line_run_break p s 0 hstep, by omega⟩
  | succ a ih =>
      intro b s hpx hpy hi1 hi2
      have hxne : s.x0 ≠ p.x1 := by
        rcases hsx with h1 | h1 <;> rw [h1] at hpx <;> (intro hc; omega)
      have he2 : i16 (2 * s.err) = 2 * s.err := i16_eq_self _ (by omega) (by omega)
      have he1 : i16 (s.err + p.dy) = s.err + p.dy :=
        i16_eq_self _ (by omega) (by omega)
      by_cases hb2 : 2 * s.err ≤ p.dx
      · by_cases hyy : s.y0 = p.y1
        · have hstep : line_step p s = none := by
            simp only [line_step]
            rw [if_neg (fun hc => hxne hc.1), he2, if_pos (by omega), if_neg hxne,
              if_pos (by omega), if_pos hyy]
          exact ⟨1, line_run_break p s (a + 1) hstep, by omega⟩
        · have hbpos : b ≠ 0 := by
            intro h0
            exact hyy (by rw [hpy, h0]; push_cast; ring)
          have he12 : i16 (i16 (s.err + p.dy) + p.dx) = s.err + p.dy + p.dx := by
            rw [he1]
            exact i16_eq_self _ (by omega) (by omega)
          have hstep : line_step p s
              = some ⟨s.x0 + p.sx, s.y0 + p.sy, i16 (i16 (s.err + p.dy) + p.dx)⟩ := by
            simp only [line_step]
            rw [if_neg (fun hc => hxne hc.1), he2, if_pos (by omega), if_neg hxne,
              if_pos (by omega), if_neg hyy]
          obtain ⟨n, hrun, hn⟩ := ih (b - 1)
            ⟨s.x0 + p.sx, s.y0 + p.sy, i16 (i16 (s.err + p.dy) + p.dx)⟩
            (by
              simp only []
              rcases hsx with h1 | h1 <;> rw [h1] at hpx ⊢ <;> omega)
            (by
              simp only []
              rcases hsy with h1 | h1 <;> rw [h1] at hpy ⊢ <;> omega)
            (by simp only [he12]; omega)
            (by simp only [he12]; omega)
          exact ⟨n + 1, line_run_succ p s _ (a + 1) n hstep hrun, by omega⟩
      · have hstep : line_step p s
            = some ⟨s.x0 + p.sx, s.y0, i16 (s.err + p.dy)⟩ := by
          simp only [line_step]
          rw [if_neg (fun hc => hxne hc.1), he2, if_pos (by omega), if_neg hxne,
            if_neg hb2]
        obtain ⟨n, hrun, hn⟩ := ih b ⟨s.x0 + p.sx, s.y0, i16 (s.err + p.dy)⟩
          (by
            simp only []
            rcases hsx with h1 | h1 <;> rw [h1] at hpx ⊢ <;> omega)
          (by simp only []; exact hpy)
          (by simp only [he1]; omega)
          (by simp only [he1]; omega)
        exact ⟨n + 1, line_run_succ p s _ (a + 1) n hstep hrun, by omega⟩

/-- Y-major runs of the line loop: when `dx < -dy` (both exact, within
`±10922`) and the error term satisfies `3*dy ≤ 2*err ≤ dx`, the loop
finishes within `b + 1` iterations, where `b` is the remaining distance
along y. -/
theorem line_run_y_major (p : line_params)
    (hsx : p.sx = 1 ∨ p.sx = -1) (hsy : p.sy = 1 ∨ p.sy = -1)
    (hdx0 : 0 ≤ p.dx) (hdxN : p.dx ≤ 10922)
    (hdyN : -10922 ≤ p.dy) (hdy0 : p.dy ≤ 0)
    (hmaj : p.dx < -p.dy) :
    ∀ (b : Nat) (a : Nat) (s : line_state),
      s.x0 = p.x1 - p.sx * (a : Int) → s.y0 = p.y1 - p.sy * (b : Int) →
      3 * p.dy ≤ 2 * s.err → 2 * s.err ≤ p.dx →
      ∃ n, line_run p s (b + 1) = some n ∧ n ≤ b + 1 := by
  intro b
  induction b with
  | zero =>
      intro a s hpx hpy hi1 hi2
      have hy0 : s.y0 = p.y1 := by rw [hpy]; push_cast; ring
      have he2 : i16 (2 * s.err) = 2 * s.err := i16_eq_self _ (by omega) (by omega)
      have hstep : line_step p s = none := by
        simp only [line_step]
        by_cases hx : s.x0 = p.x1
        · rw [if_pos ⟨hx, hy0⟩]
        · rw [if_neg (fun hc => hx hc.1), he2]
          by_cases hb1 : p.dy ≤ 2 * s.err
          · rw [if_pos hb1, if_neg hx, if_pos (by omega), if_pos hy0]
          · rw [if_neg hb1, if_pos (by omega), if_pos hy0]
      exact ⟨1, line_run_break p s 0 hstep, by omega⟩
  | succ b ih =>
      intro a s hpx hpy hi1 hi2
      have hyne : s.y0 ≠ p.y1 := by
        rcases hsy with h1 | h1 <;> rw [h1] at hpy <;> (intro hc; omega)
      have he2 : i16 (2 * s.err) = 2 * s.err := i16_eq_self _ (by omega) (by omega)
      by_cases hb1 : p.dy ≤ 2 * s.err
      · by_cases hxx : s.x0 = p.x1
        · have hstep : line_step p s = none := by
            simp only [line_step]
            rw [if_neg (fun hc => hyne hc.2), he2, if_pos hb1, if_pos hxx]
          exact ⟨1, line_run_break p s (b + 1) hstep, by omega⟩
        · have hapos : a ≠ 0 := by
            intro h0
            exact hxx (by rw [hpx, h0]; push_cast; ring)
          have he1 : i16 (s.err + p.dy) = s.err + p.dy :=
            i16_eq_self _ (by omega) (by omega)
          have he12 : i16 (i16 (s.err + p.dy) + p.dx) = s.err + p.dy + p.dx := by
            rw [he1]
            exact i16_eq_self _ (by omega) (by omega)
          have hstep : line_step p s
              = some ⟨s.x0 + p.sx, s.y0 + p.sy, i16 (i16 (s.err + p.dy) + p.dx)⟩ := by
            simp only [line_step]
            rw [if_neg (fun hc => hyne hc.2), he2, if_pos hb1, if_neg hxx,
              if_pos (by omega), if_neg hyne]
          obtain ⟨n, hrun, hn⟩ := ih (a - 1)
            ⟨s.x0 + p.sx, s.y0 + p.sy, i16 (i16 (s.err + p.dy) + p.dx)⟩
            (by
              simp only []
              rcases hsx with h1 | h1 <;> rw [h1] at hpx ⊢ <;> omega)
            (by
              simp only []
              rcases hsy with h1 | h1 <;> rw [h1] at hpy ⊢ <;> omega)
            (by simp only [he12]; omega)
            (by simp only [he12]; omega)
          exact ⟨n + 1, line_run_succ p s _ (b + 1) n hstep hrun, by omega⟩
      · have he3 : i16 (s.err + p.dx) = s.err + p.dx :=
          i16_eq_self _ (by omega) (by omega)
        have hstep : line_step p s
            = some ⟨s.x0, s.y0 + p.sy, i16 (s.err + p.dx)⟩ := by
          simp only [line_step]
          rw [if_neg (fun hc => hyne hc.2), he2, if_neg hb1, if_pos (by omega),
            if_neg hyne]
        obtain ⟨n, hrun, hn⟩ := ih a ⟨s.x0, s.y0 + p.sy, i16 (s.err + p.dx)⟩
          (by simp only []; exact hpx)
          (by
            simp only []
            rcases hsy with h1 | h1 <;> rw [h1] at hpy ⊢ <;> omega)
          (by simp only [he3]; omega)
          (by simp only [he3]; omega)
        exact ⟨n + 1, line_run_succ p s _ (b + 1) n hstep hrun, by omega⟩

/-- C9 (amended): for endpoints whose coordinate differences are at
most 10922 in absolute value (so that no `int16_t` intermediate of the
loop wraps), `display_draw_line` terminates and performs at most
`max(|x1-x0|, |y1-y0|) + 1` pixel-set calls; the degenerate single-point
case performs exactly one. -/
theorem draw_line_terminates (x0 y0 x1 y1 : Int)
    (hx : (x1 - x0).natAbs ≤ 10922) (hy : (y1 - y0).natAbs ≤ 10922) :
    (∃ n, display_draw_line x0 y0 x1 y1
        (max (x1 - x0).natAbs (y1 - y0).natAbs + 1) = some n ∧
      n ≤ max (x1 - x0).natAbs (y1 - y0).natAbs + 1) ∧
    (x0 = x1 → y0 = y1 → display_draw_line x0 y0 x1 y1 1 = some 1) := by
  have hca : c_abs (x1 - x0) = ((x1 - x0).natAbs : Int) := by
    unfold c_abs
    by_cases h : x1 - x0 < 0
    · rw [if_pos h]; omega
    · rw [if_neg h]; omega
  have hcb : c_abs (y1 - y0) = ((y1 - y0).natAbs : Int) := by
    unfold c_abs
    by_cases h : y1 - y0 < 0
    · rw [if_pos h]; omega
    · rw [if_neg h]; omega
  have hdx : i16 (c_abs (x1 - x0)) = ((x1 - x0).natAbs : Int) := by
    rw [hca]; exact i16_eq_self _ (by omega) (by omega)
  have hdy : i16 (-c_abs (y1 - y0)) = -((y1 - y0).natAbs : Int) := by
    rw [hcb]; exact i16_eq_self _ (by omega) (by omega)
  have herr : i16 (((x1 - x0).natAbs : Int) + -((y1 - y0).natAbs : Int))
      = ((x1 - x0).natAbs : Int) + -((y1 - y0).natAbs : Int) :=
    i16_eq_self _ (by omega) (by omega)
  have hsx' : (if x0 < x1 then (1 : Int) else -1) = 1 ∨
      (if x0 < x1 then (1 : Int) else -1) = -1 := by
    by_cases h : x0 < x1 <;> simp [h]
  have hsy' : (if y0 < y1 then (1 : Int) else -1) = 1 ∨
      (if y0 < y1 then (1 : Int) else -1) = -1 := by
    by_cases h : y0 < y1 <;> simp [h]
  have hpx' : x0 = x1 - (if x0 < x1 then (1 : Int) else -1)
      * (((x1 - x0).natAbs : Nat) : Int) := by
    by_cases h : x0 < x1
    · rw [if_pos h]; omega
    · rw [if_neg h]; omega
  have hpy' : y0 = y1 - (if y0 < y1 then (1 : Int) else -1)
      * (((y1 - y0).natAbs : Nat) : Int) := by
    by_cases h : y0 < y1
    · rw [if_pos h]; omega
    · rw [if_neg h]; omega
  have hb1 : (0 : Int) ≤ ((x1 - x0).natAbs : Int) := by omega
  have hb2 : ((x1 - x0).natAbs : Int) ≤ 10922 := by omega
  have hb3 : (-10922 : Int) ≤ -((y1 - y0).natAbs : Int) := by omega
  have hb4 : -((y1 - y0).natAbs : Int) ≤ 0 := by omega
  constructor
  · unfold display_draw_line
    rw [hdx, hdy, herr]
    by_cases hm : (y1 - y0).natAbs ≤ (x1 - x0).natAbs
    · rw [Nat.max_eq_left hm]
      have hb5 : -(-((y1 - y0).natAbs : Int)) ≤ ((x1 - x0).natAbs : Int) := by
        omega
      have hiv1 : -((y1 - y0).natAbs : Int)
          ≤ 2 * (((x1 - x0).natAbs : Int) + -((y1 - y0).natAbs : Int)) := by
        omega
      have hiv2 : 2 * (((x1 - x0).natAbs : Int) + -((y1 - y0).natAbs : Int))
          ≤ 3 * ((x1 - x0).natAbs : Int) := by
        omega
      exact line_run_x_major
        ⟨x1, y1, ((x1 - x0).natAbs : Int), -((y1 - y0).natAbs : Int),
          if x0 < x1 then 1 else -1, if y0 < y1 then 1 else -1⟩
        hsx' hsy' hb1 hb2 hb3 hb4 hb5
        (x1 - x0).natAbs (y1 - y0).natAbs
        ⟨x0, y0, ((x1 - x0).natAbs : Int) + -((y1 - y0).natAbs : Int)⟩
        hpx' hpy' hiv1 hiv2
    · rw [Nat.max_eq_right (Nat.le_of_lt (Nat.lt_of_not_le hm))]
      have hb5 : ((x1 - x0).natAbs : Int) < -(-((y1 - y0).natAbs : Int)) := by
        omega
      have hiv1 : 3 * -((y1 - y0).natAbs : Int)
          ≤ 2 * (((x1 - x0).natAbs : Int) + -((y1 - y0).natAbs : Int)) := by
        omega
      have hiv2 : 2 * (((x1 - x0).natAbs : Int) + -((y1 - y0).natAbs : Int))
          ≤ ((x1 - x0).natAbs : Int) := by
        omega
      exact line_run_y_major
        ⟨x1, y1, ((x1 - x0).natAbs : Int), -((y1 - y0).natAbs : Int),
          if x0 < x1 then 1 else -1, if y0 < y1 then 1 else -1⟩
        hsx' hsy' hb1 hb2 hb3 hb4 hb5
        (y1 - y0).natAbs (x1 - x0).natAbs
        ⟨x0, y0, ((x1 - x0).natAbs : Int) + -((y1 - y0).natAbs : Int)⟩
        hpx' hpy' hiv1 hiv2
  · intro hxx hyy
    subst hxx
    subst hyy
    unfold display_draw_line
    exact line_run_break _ _ 0 (by simp [line_step])

/-- Witness for C9 (amended) on the segment `(0,0)-(3,2)`: the loop
finishes within `max 3 2 + 1 = 4` pixel-set calls. -/
theorem draw_line_terminates_witness :
    (∃ n, display_draw_line 0 0 3 2
        (max ((3 : Int) - 0).natAbs ((2 : Int) - 0).natAbs + 1) = some n ∧
      n ≤ max ((3 : Int) - 0).natAbs ((2 : Int) - 0).natAbs + 1) ∧
    ((0 : Int) = 3 → (0 : Int) = 2 → display_draw_line 0 0 3 2 1 = some 1) :=
  draw_line_terminates 0 0 3 2 (by decide) (by decide)

/-- C10: for a non-null font and a code outside
`[first_char, first_char + char_count)`, `get_char_info` returns
`is_defined = false`, the font's full header width as fallback width
(never half of it), and `bitmap_offset = bytes = 0`. -/
theorem get_char_info_out_of_range (f : Nat → Nat) (c : Nat)
    (h : c < (get_font_info (some f)).first_char ∨
         (get_font_info (some f)).first_char + (get_font_info (some f)).char_count ≤ c) :
    get_char_info (some f) c = ⟨0, (get_font_info (some f)).width, 0, false⟩ := by
  simp only [get_char_info]
  rw [if_pos h]

/-- Witness for C10: code 300 lies outside the range `[0, 255)` of
`font_big_offset`, and the fallback width is the header width byte 5. -/
theorem get_char_info_out_of_range_witness :
    get_char_info (some font_big_offset) 300 = ⟨0, 5, 0, false⟩ := by
  have h := get_char_info_out_of_range font_big_offset 300 (by decide)
  simpa using h

/-- Counterexample for C3: in `font_big_offset`, code 0 has jump-table
entry `0xFF, 0xFE` and `char_count = 255`, so the claimed offset
`4 + 255*4 + 0xFFFE = 66558` does not fit the `uint16_t` field: the code
stores `66558 % 65536 = 1022` instead. -/
theorem get_char_info_offset_wraps :
    (get_char_info (some font_big_offset) 0).is_defined = true ∧
    (get_char_info (some font_big_offset) 0).bitmap_offset ≠
      FONT_HEADER_SIZE + 255 * JUMPTABLE_BYTES_PER_CHAR + (255 * 256 + 254) := by
  decide

/-- C3 (amended): for a non-null font and a code inside
`[first_char, first_char + char_count)`, if the 4-byte jump-table entry
has `offset_hi = offset_lo = 0xFF` then `get_char_info` returns
`is_defined = false`; otherwise it returns `is_defined = true` with
`bitmap_offset = (4 + char_count*4 + (offset_hi <<< 8 ||| offset_lo))`
reduced modulo 2^16 (the field is a `uint16_t`), and with the entry's
`byte_count` and `advance_width` fields. -/
theorem get_char_info_in_range (f : Nat → Nat) (c : Nat)
    (h1 : (get_font_info (some f)).first_char ≤ c)
    (h2 : c < (get_font_info (some f)).first_char + (get_font_info (some f)).char_count) :
    (pgm_read_byte f (FONT_HEADER_SIZE
        + (c - (get_font_info (some f)).first_char) * JUMPTABLE_BYTES_PER_CHAR + 0) = 0xFF ∧
     pgm_read_byte f (FONT_HEADER_SIZE
        + (c - (get_font_info (some f)).first_char) * JUMPTABLE_BYTES_PER_CHAR + 1) = 0xFF →
       (get_char_info (some f) c).is_defined = false) ∧
    (¬(pgm_read_byte f (FONT_HEADER_SIZE
        + (c - (get_font_info (some f)).first_char) * JUMPTABLE_BYTES_PER_CHAR + 0) = 0xFF ∧
       pgm_read_byte f (FONT_HEADER_SIZE
        + (c - (get_font_info (some f)).first_char) * JUMPTABLE_BYTES_PER_CHAR + 1) = 0xFF) →
       get_char_info (some f) c =
         ⟨(FONT_HEADER_SIZE + (get_font_info (some f)).char_count * JUMPTABLE_BYTES_PER_CHAR
             + (pgm_read_byte f (FONT_HEADER_SIZE
                  + (c - (get_font_info (some f)).first_char) * JUMPTABLE_BYTES_PER_CHAR + 0) * 256
                + pgm_read_byte f (FONT_HEADER_SIZE
                  + (c - (get_font_info (some f)).first_char) * JUMPTABLE_BYTES_PER_CHAR + 1)))
            % 65536,
          pgm_read_byte f (FONT_HEADER_SIZE
            + (c - (get_font_info (some f)).first_char) * JUMPTABLE_BYTES_PER_CHAR + 3),
          pgm_read_byte f (FONT_HEADER_SIZE
            + (c - (get_font_info (some f)).first_char) * JUMPTABLE_BYTES_PER_CHAR + 2),
          true⟩) := by
  have hrange : ¬(c < (get_font_info (some f)).first_char ∨
      (get_font_info (some f)).first_char + (get_font_info (some f)).char_count ≤ c) := by
    omega
  constructor
  · intro hmark
    simp only [get_char_info]
    rw [if_neg hrange, if_pos hmark]
  · intro hmark
    simp only [get_char_info]
    rw [if_neg hrange, if_neg hmark]

/-- Witness for C3 (amended): in `font_big_offset`, code 0 is in range,
the marker is not `0xFF,0xFF`, and the stored offset is 1022. -/
theorem get_char_info_in_range_witness :
    (get_char_info (some font_big_offset) 0).bitmap_offset = 1022 ∧
    (get_char_info (some font_big_offset) 0).width = 5 ∧
    (get_char_info (some font_big_offset) 0).bytes = 1 ∧
    (get_char_info (some font_big_offset) 0).is_defined = true := by
  have h := (get_char_info_in_range font_big_offset 0 (by decide) (by decide)).2 (by decide)
  rw [h]
  decide

/-- C8: fed a byte `c ≥ 128`, `utf8_to_ascii` returns `c` unchanged when
the remembered previous byte was `0xC2`, and `c ||| 0xC0` when it was
`0xC3`; in particular feeding `0xC3` then `0xA9` (from the reset state)
yields a dropped first byte (return 0) followed by `0xE9`. -/
theorem utf8_continuation (c : Nat) (h1 : 128 ≤ c) (h2 : c < 256) :
    (utf8_to_ascii 0xC2 c).1 = c ∧
    (utf8_to_ascii 0xC3 c).1 = (c ||| 0xC0) ∧
    (utf8_to_ascii 0 0xC3).1 = 0 ∧
    (utf8_to_ascii (utf8_to_ascii 0 0xC3).2 0xA9).1 = 0xE9 := by
  have hc : ¬ c < 128 := by omega
  refine ⟨?_, ?_, by decide, by decide⟩
  · simp [utf8_to_ascii, hc]
  · simp [utf8_to_ascii, hc]

/-- Witness for C8 at the concrete continuation byte `0xA9`. -/
theorem utf8_continuation_witness :
    (utf8_to_ascii 0xC2 0xA9).1 = 0xA9 ∧
    (utf8_to_ascii 0xC3 0xA9).1 = (0xA9 ||| 0xC0) ∧
    (utf8_to_ascii 0 0xC3).1 = 0 ∧
    (utf8_to_ascii (utf8_to_ascii 0 0xC3).2 0xA9).1 = 0xE9 :=
  utf8_continuation 0xA9 (by decide) (by decide)

end Oled
